import Mathlib

/-!
Verification of the GithubAppHandler webhook engine
(`githubapp/events/event.py`, `githubapp/webhook_handler.py`,
`githubapp/LazyCompletableGithubObject.py`).

Shallow embedding conventions:
* strings are lists of character codes (`List Nat`), built with `chars`;
* a Python `dict` is an association list (`Dict`); assignment appends an
  entry and reads take the *last* binding (`dlookup`), which is exactly
  Python's overwrite-on-assign read semantics;
* payload values (`Val`) are either scalar strings or nested dicts, as
  webhook JSON bodies are; `int(...)` conversions in the source are kept
  as the opaque scalar they parse (no claim concerns numeric parsing);
* fallible code (missing dict keys raise `KeyError` in Python) returns
  `Option`/`Except`.
-/

/-- Character codes of a string literal. -/
def chars (s : String) : List Nat := s.data.map (fun c => c.toNat)

/-- Dictionary keys (and scalar values) are strings as code lists. -/
abbrev Key := List Nat

/-- A webhook payload value: a scalar (string/number, kept opaque as its
textual codes) or a nested JSON object. -/
inductive Val where
  | prim : List Nat → Val
  | vdict : List (Key × Val) → Val

/-- A Python dict of payload data. -/
abbrev Dict := List (Key × Val)

mutual

/-- Python `==` on payload values (identifier values in this repository are
always flat strings, for which this agrees with Python's comparison). -/
def vbeq : Val → Val → Bool
  | .prim a, .prim b => a == b
  | .vdict a, .vdict b => dbeq a b
  | .prim _, .vdict _ => false
  | .vdict _, .prim _ => false

/-- Entrywise comparison of nested dict values. -/
def dbeq : List (Key × Val) → List (Key × Val) → Bool
  | [], [] => true
  | (k1, v1) :: r1, (k2, v2) :: r2 => k1 == k2 && vbeq v1 v2 && dbeq r1 r2
  | [], _ :: _ => false
  | _ :: _, [] => false

end

/-- Reading `d[k]`: the last binding of `k` wins, as after Python dict
assignments; `none` models a `KeyError` / absent key. -/
def dlookup : Dict → Key → Option Val
  | [], _ => none
  | (k', v) :: rest, k =>
    match dlookup rest k with
    | some w => some w
    | none => if k' = k then some v else none

/-- `attr.lower()` on one ASCII character code. -/
def lowerCode (n : Nat) : Nat := if 65 ≤ n ∧ n ≤ 90 then n + 32 else n

/-- `attr.lower()`. -/
def lowerStage (k : List Nat) : List Nat := k.map lowerCode

/-- `re.sub(r"[- ]", "_", attr)` on one character code
(`45 = '-'`, `32 = ' '`, `95 = '_'`). -/
def sepCode (n : Nat) : Nat := if n = 45 ∨ n = 32 then 95 else n

/-- `re.sub(r"[- ]", "_", attr)`. -/
def sepStage (k : List Nat) : List Nat := k.map sepCode

/-- Worker for `replaceAll`, structurally recursive on a fuel argument so
that it evaluates inside the kernel; each step consumes at least one
character of the scanned list, so fuel `= l.length` always suffices. -/
def replaceAllGo (p r : List Nat) : Nat → List Nat → List Nat
  | 0, l => l
  | _ + 1, [] => []
  | fuel + 1, c :: cs =>
    if 0 < p.length ∧ (c :: cs).take p.length = p then
      r ++ replaceAllGo p r fuel ((c :: cs).drop p.length)
    else
      c :: replaceAllGo p r fuel cs

/-- Python `s.replace(old, new)`: replace every non-overlapping occurrence
of `p`, scanning left to right (guarded to nonempty patterns, the only
case the source uses). -/
def replaceAll (p r l : List Nat) : List Nat := replaceAllGo p r l.length l

/-- Does `p` occur as a contiguous sublist of `l`? -/
def occursIn (p : List Nat) : List Nat → Bool
  | [] => decide (p = [])
  | c :: cs => decide ((c :: cs).take p.length = p) || occursIn p cs

/-- The code list of `"x-github-"`, the marker the source removes. -/
def ghMarker : List Nat := chars "x-github-"

/-- One normalized key, exactly the three statements of
`Event.normalize_dicts`'s loop body:
`attr = attr.lower()`, `attr = attr.replace("x-github-", "")`,
`attr = re.sub(r"[- ]", "_", attr)`. -/
def normalizeKey (k : Key) : Key := sepStage (replaceAll ghMarker [] (lowerStage k))

/-- The spec's wording of the key transformation ("keys lower-cased; the
`x-github-` *prefix* stripped; separators normalized"): strips the marker
only when it is a leading prefix. Used to compare the spec's description
against the source's `replace`-all behaviour. -/
def specNormalizeKey (k : Key) : Key :=
  let l := lowerStage k
  sepStage (if l.take ghMarker.length = ghMarker then l.drop ghMarker.length else l)

/-- `Event.normalize_dicts(*dicts)`: one union dict, later entries
overwriting earlier ones, every key normalized. -/
def normalize_dicts : List Dict → Dict
  | [] => []
  | d :: ds => d.map (fun e => (normalizeKey e.1, e.2)) ++ normalize_dicts ds

/-! ## Event type hierarchy and the classifier (`Event.get_event`) -/

/-- A node of the event class hierarchy: class name, its
`event_identifier` dict, and its direct subclasses in declaration order
(`cls.__subclasses__()`).  The repository root `Event` has
`event_identifier = None`, i.e. no constraints; it is modelled with the
empty identifier, which `eventMatch` satisfies vacuously (the source never
calls `match` on the root). -/
inductive ETree where
  | node : Key → Dict → List ETree → ETree

/-- The class name of a node. -/
def nameOf : ETree → Key
  | .node n _ _ => n

/-- The `event_identifier` of a node. -/
def identOf : ETree → Dict
  | .node _ i _ => i

/-- The direct subclasses of a node. -/
def childrenOf : ETree → List ETree
  | .node _ _ cs => cs

/-- `Event.match(cls, data)`: every `event_identifier` entry must be
present in `data` with an equal value. -/
def eventMatch (ident : Dict) (data : Dict) : Bool :=
  ident.all (fun e =>
    match dlookup data e.1 with
    | some w => vbeq e.2 w
    | none => false)

mutual

/-- `Event.get_event(cls, headers, body)`: normalize headers and body into
one union dict, descend into the first direct subclass whose identifier
matches, and return the current class when none does. -/
def get_event (h b : Dict) : ETree → ETree
  | .node n i cs =>
    match pickChild h b cs with
    | some r => r
    | none => .node n i cs

/-- The `for event in cls.__subclasses__(): if event.match(...): return
event.get_event(...)` loop body: first matching subclass wins. -/
def pickChild (h b : Dict) : List ETree → Option ETree
  | [] => none
  | c :: cs =>
    if eventMatch (identOf c) (normalize_dicts [h, b]) = true then
      some (get_event h b c)
    else
      pickChild h b cs

end

/-! ## Handler registry (`webhook_handler.py`) -/

/-- A handler callable, identified by its `__qualname__` and the names of
its signature's parameters (`inspect.signature(method).parameters`). -/
structure Handler where
  qualname : List Nat
  params : List (List Nat)
deriving DecidableEq

/-- `", ".join(parameters.keys())`. -/
def joinComma : List (List Nat) → List Nat
  | [] => []
  | [p] => p
  | p :: q :: rest => p ++ chars ", " ++ joinComma (q :: rest)

/-- The `SignatureError` message built by its `__init__`. -/
def sigMessage (m : Handler) : List Nat :=
  chars "Method " ++ m.qualname ++ chars "(" ++ joinComma m.params ++
    chars ") signature error. The method must accept only one argument of the Event type"

/-- `SignatureError`, carrying its message. -/
structure SigErr where
  message : List Nat
deriving DecidableEq

/-- `_validate_signature(method)`: raise `SignatureError` unless the
signature has exactly one parameter. -/
def validate_sig (m : Handler) : Except SigErr Unit :=
  if m.params.length ≠ 1 then .error ⟨sigMessage m⟩ else .ok ()

/-- The global `handlers` registry, keyed by (leaf) event class; the
per-class list keeps registration order. -/
def Registry := Key → List Handler

/-- The `defaultdict(list)` initial registry. -/
def emptyReg : Registry := fun _ => []

/-- `handlers[event].append(method)`. -/
def store (reg : Registry) (n : Key) (m : Handler) : Registry :=
  fun k => if k = n then reg k ++ [m] else reg k

mutual

/-- `add_handler(event, method)`: if the event class has subclasses,
recurse into every one of them; otherwise validate the signature and
append the handler under the leaf class. -/
def add_handler (m : Handler) : ETree → Registry → Except SigErr Registry
  | .node n _ [], reg =>
    match validate_sig m with
    | .error e => .error e
    | .ok _ => .ok (store reg n m)
  | .node _ _ (c :: cs), reg => add_handler_list m (c :: cs) reg

/-- Registers `m` into each subtree in order, stopping at the first
raised `SignatureError` (which, the handler being the same at every leaf,
can only happen before anything was stored). -/
def add_handler_list (m : Handler) : List ETree → Registry → Except SigErr Registry
  | [], reg => .ok reg
  | t :: ts, reg =>
    match add_handler m t reg with
    | .error e => .error e
    | .ok reg' => add_handler_list m ts reg'

end

mutual

/-- Names of the leaf descendants of a node, in the depth-first order
`add_handler` visits them (a leaf's sole "descendant" is itself). -/
def leafNames : ETree → List Key
  | .node n _ [] => [n]
  | .node _ _ (c :: cs) => leafNamesList (c :: cs)

/-- Leaf names of a forest, in order. -/
def leafNamesList : List ETree → List Key
  | [] => []
  | t :: ts => leafNames t ++ leafNamesList ts

end

/-! ## Authentication and the dispatcher (`handle`) -/

/-- The environment variables `_get_auth` and `LazyRequester` consult. -/
structure Env where
  clientId : Option (List Nat)
  clientSecret : Option (List Nat)
  token : Option (List Nat)
  privateKey : Option (List Nat)

/-- The credential object `_get_auth` returns: either an `AppUserAuth`
built from environment variables, or a short-lived installation `Token`
obtained by exchanging the app's private key through
`GithubIntegration(...).get_access_token(installation_id)` — the exchange
is kept symbolic, recording exactly the inputs that determine it. -/
inductive Auth where
  | appUser : List Nat → List Nat → List Nat → Auth
  | installationToken : Val → Val → List Nat → Auth

/-- `_get_auth(hook_installation_target_id, installation_id)`. When
`PRIVATE_KEY` is unset the source reads `private-key.pem`; that external
file content is a fixed unknown here. -/
def get_auth (env : Env) (tid iid : Val) : Auth :=
  match env.clientId with
  | some cid => .appUser cid (env.clientSecret.getD []) (env.token.getD [])
  | none => .installationToken tid iid (env.privateKey.getD (chars "private-key.pem"))

/-- The `Event` *class* attributes that `Event.__init__` assigns on every
construction — process-wide state shared by all deliveries.
(`Event.installation_id` is declared but never assigned in the source, so
it is not part of the mutating footprint.) -/
structure EventClassState where
  delivery : Option Val
  github_event : Option Val
  hook_id : Option Val
  hook_installation_target_id : Option Val
  hook_installation_target_type : Option Val
  raw_headers : Option Dict
  raw_body : Option Dict

/-- The class state before any delivery: every attribute is `None`. -/
def csInit : EventClassState :=
  ⟨none, none, none, none, none, none, none⟩

/-- The payload-facing shape of an event class's constructor chain:
`required` are the parameters without defaults that must come from the
body (`Event.__init__`'s keyword-only `sender` plus the matched
subclass's own parameters, e.g. `check_suite` for the check-suite
classes); a missing one raises `TypeError` at argument binding, before
any statement of `__init__` runs.  `captured` are all the named
parameters the chain consumes out of `**kwargs` (the required ones plus
the defaulted `repository`): only the remaining keys are still in
`kwargs` when `Event.__init__` stores `Event._raw_body = kwargs`.
(`gh`, `requester` and `headers` are supplied by `handle` itself, never
from the body.) -/
structure CtorSig where
  required : List Key
  captured : List Key

/-- Constructing the matched event class: argument binding fails with
`TypeError` if a required payload field is absent from the body; then
`Event.__init__` reads the five `X-Github-*` headers (a missing one
raises `KeyError`) and overwrites all the shared class attributes — the
result does not depend on the previous class state, and `_raw_body`
holds only the kwargs left over after the constructor chain captured its
named parameters.  Either failure aborts the delivery, hence `none`
(the source's partially-assigned prefix when a *later* header is the
missing one is not represented; it is reachable only with malformed
transport headers, which no claim concerns).  The instance-level effects
(`_parse_object` of sender/repository with `completed=True`) perform no
request and are not part of this state. -/
def eventInit (sig : CtorSig) (h b : Dict) : Option EventClassState :=
  if sig.required.all (fun k => (dlookup b k).isSome) then
    match dlookup h (chars "X-Github-Delivery"),
          dlookup h (chars "X-Github-Event"),
          dlookup h (chars "X-Github-Hook-Id"),
          dlookup h (chars "X-Github-Hook-Installation-Target-Id"),
          dlookup h (chars "X-Github-Hook-Installation-Target-Type") with
    | some d, some e, some hid, some tid, some ttype =>
      some ⟨some d, some e, some hid, some tid, some ttype, some h,
            some (b.filter (fun e0 => !sig.captured.contains e0.1))⟩
    | _, _, _, _, _ => none
  else none

/-- One observable step of a delivery's processing. -/
inductive DStep where
  | authAcquire : Auth → DStep
  | construct : Key → Nat → DStep
  | handlerCall : Handler → Nat → DStep

/-- The `for handler in handlers.get(event_class, [])` loop: each
iteration constructs a *fresh* event instance (numbered `k`, since each
evaluation of `event_class(...)` creates a new object) and passes it to
the handler; every construction rewrites the shared class state.  A
failed construction (`eventInit` = `none`) or a handler that raises
(`hres` is the external oracle for whether a handler's call returns
normally on this delivery) propagates out of the loop, aborting the
delivery: the remaining iterations never run, hence `none` — the
construction being the same expression every iteration, a failing one
already fails at the first iteration, before any handler ran. -/
def runLoop (h b : Dict) (cname : Key) (sig : CtorSig) (hres : Handler → Bool) :
    List Handler → Nat → EventClassState → Option (List DStep × EventClassState)
  | [], _, cs => some ([], cs)
  | hd :: rest, k, _ =>
    match eventInit sig h b with
    | none => none
    | some cs' =>
      if hres hd then
        match runLoop h b cname sig hres rest (k + 1) cs' with
        | none => none
        | some (tr, csf) =>
          some (.construct cname k :: .handlerCall hd k :: tr, csf)
      else none

/-- `handle(headers, body)`: classify, read the installation target id
header and `body["installation"]["id"]` (`none` on a missing key),
acquire credentials eagerly, then run every registered handler for the
matched class in registration order.  `sigs` maps each event class (by
name, as the registry does) to its constructor's payload signature. -/
def handle (env : Env) (sigs : Key → CtorSig) (hres : Handler → Bool)
    (root : ETree) (reg : Registry) (h b : Dict)
    (cs : EventClassState) : Option (List DStep × EventClassState) :=
  match dlookup h (chars "X-Github-Hook-Installation-Target-Id") with
  | none => none
  | some tid =>
    match dlookup b (chars "installation") with
    | some (.vdict inst) =>
      match dlookup inst (chars "id") with
      | none => none
      | some iid =>
        match runLoop h b (nameOf (get_event h b root))
            (sigs (nameOf (get_event h b root))) hres
            (reg (nameOf (get_event h b root))) 0 cs with
        | none => none
        | some (tr, csf) =>
          some (.authAcquire (get_auth env tid iid) :: tr, csf)
    | _ => none

/-- Number of credential acquisitions in a trace. -/
def countAuth (tr : List DStep) : Nat :=
  tr.countP (fun a => match a with | .authAcquire _ => true | _ => false)

/-- The construction events of a trace, in order. -/
def constructsOf (tr : List DStep) : List Nat :=
  tr.filterMap (fun a => match a with | .construct _ k => some k | _ => none)

/-- The handler invocations of a trace: each handler with the number of
the instance it received. -/
def callsOf (tr : List DStep) : List (Handler × Nat) :=
  tr.filterMap (fun a => match a with | .handlerCall m k => some (m, k) | _ => none)

/-- How many times a trace invokes the given handler. -/
def countCallsTo (m : Handler) (tr : List DStep) : Nat :=
  ((callsOf tr).map Prod.fst).count m

/-- Pairs each list element with its index, starting at `k`
(the loop counter of `runLoop`). -/
def withIdx (k : Nat) : List α → List (Nat × α)
  | [] => []
  | a :: rest => (k, a) :: withIdx (k + 1) rest

/-! ## The lazy requester (`LazyCompletableGithubObject.py`) -/

/-- The mutable state of a `LazyRequester`: the `_initialized` flag and a
count of how many times `initialize()` ran (each run acquires
credentials and installs the `Requester` attributes). -/
structure LRState where
  initialized : Bool
  inits : Nat

/-- `LazyRequester.__init__`: no credential acquisition, only
`_initialized = False`.  `LazyCompletableGithubObject.__init__` installs
exactly this fresh state as `self._requester`. -/
def LRState.new : LRState := ⟨false, 0⟩

/-- Reading attribute `i` of a `LazyRequester` whose post-`initialize()`
attributes are `A`: before initialization nothing is present, so the read
enters `__getattr__`, which sets the flag, runs `initialize()` once and
retries the lookup — a still-missing attribute then re-enters
`__getattr__` with the flag set and raises `AttributeError` (`.error`),
never running `initialize()` again. -/
def lrRead (A : Key → Option Val) (s : LRState) (i : Key) :
    Except Unit Val × LRState :=
  if s.initialized then
    match A i with
    | some v => (.ok v, s)
    | none => (.error (), s)
  else
    let s' : LRState := ⟨true, s.inits + 1⟩
    match A i with
    | some v => (.ok v, s')
    | none => (.error (), s')

/-- The state after an arbitrary sequence of attribute reads on a fresh
`LazyRequester`. -/
def runReads (A : Key → Option Val) (items : List Key) : LRState :=
  items.foldl (fun s i => (lrRead A s i).2) LRState.new

/-! ## `Event.fix_attributes` -/

/-- `"https://github"` — the `startswith` guard. -/
def ghWebMark : List Nat := chars "https://github"

/-- `"https://github.com"` — the replaced substring. -/
def ghComHost : List Nat := chars "https://github.com"

/-- `"https://api.github.com/repos"` — the replacement. -/
def apiReposHost : List Nat := chars "https://api.github.com/repos"

/-- `s.startswith(p)`. -/
def startsWith (s p : List Nat) : Bool := s.take p.length == p

/-- `d[k] = v` on a dict already containing `k` (the only case
`fix_attributes` assigns in): updates the binding in place. -/
def dupdate (d : Dict) (k : Key) (v : Val) : Dict :=
  d.map (fun e => if e.1 = k then (k, v) else e)

/-- `Event.fix_attributes(attributes)`: if `attributes.get("url", "")`
starts with `"https://github"`, replace `"https://github.com"` by
`"https://api.github.com/repos"` in it.  A missing `"url"` makes the
guard test the default `""` and do nothing; a non-string `"url"` value
raises `AttributeError` in Python (`none`). -/
def fix_attributes (attrs : Dict) : Option Dict :=
  match dlookup attrs (chars "url") with
  | none => some attrs
  | some (.prim s) =>
    some (if startsWith s ghWebMark then
            dupdate attrs (chars "url") (.prim (replaceAll ghComHost apiReposHost s))
          else attrs)
  | some (.vdict _) => none

/-! ## The concrete hierarchy of `githubapp/events` (the part in `src/`)
and concrete deliveries, used to instantiate the theorems. -/

/-- `CheckSuiteCompletedEvent` (`event_identifier = {"action": "completed"}`). -/
def checkSuiteCompletedNode : ETree :=
  .node (chars "CheckSuiteCompletedEvent")
    [(chars "action", .prim (chars "completed"))] []

/-- `CheckSuiteRequestedEvent`. -/
def checkSuiteRequestedNode : ETree :=
  .node (chars "CheckSuiteRequestedEvent")
    [(chars "action", .prim (chars "requested"))] []

/-- `CheckSuiteRerequestedEvent`. -/
def checkSuiteRerequestedNode : ETree :=
  .node (chars "CheckSuiteRerequestedEvent")
    [(chars "action", .prim (chars "rerequested"))] []

/-- `CheckSuiteEvent` (`event_identifier = {"event": "check_suite"}`) with
its three subclasses in declaration order. -/
def checkSuiteNode : ETree :=
  .node (chars "CheckSuiteEvent")
    [(chars "event", .prim (chars "check_suite"))]
    [checkSuiteCompletedNode, checkSuiteRequestedNode, checkSuiteRerequestedNode]

/-- `StatusEvent` (`event_identifier = {"event": "status"}`), a leaf. -/
def statusNode : ETree :=
  .node (chars "StatusEvent") [(chars "event", .prim (chars "status"))] []

/-- The `Event` root (identifier `None`, never matched) over the
subclasses present in `src/`. -/
def eventRoot : ETree := .node (chars "Event") [] [checkSuiteNode, statusNode]

/-- A `check_suite`/`completed` delivery's headers (the five transport
headers `Event.__init__` requires). -/
def hdr0 : Dict :=
  [(chars "X-Github-Delivery", .prim (chars "a1b2c3d4")),
   (chars "X-Github-Event", .prim (chars "check_suite")),
   (chars "X-Github-Hook-Id", .prim (chars "1")),
   (chars "X-Github-Hook-Installation-Target-Id", .prim (chars "2")),
   (chars "X-Github-Hook-Installation-Target-Type", .prim (chars "type"))]

/-- Its body: the matched action, the installation block `handle` reads,
and the payload fields the constructor chain requires
(`CheckSuiteEvent.__init__`'s `check_suite`, `Event.__init__`'s
`sender`). -/
def body0 : Dict :=
  [(chars "action", .prim (chars "completed")),
   (chars "check_suite", .vdict [(chars "id", .prim (chars "5"))]),
   (chars "sender", .vdict [(chars "login", .prim (chars "heitorpolidoro"))]),
   (chars "installation", .vdict [(chars "id", .prim (chars "123"))])]

/-- Headers of a delivery whose event name matches no subclass. -/
def hdrU : Dict :=
  [(chars "X-Github-Delivery", .prim (chars "d0d0")),
   (chars "X-Github-Event", .prim (chars "potato")),
   (chars "X-Github-Hook-Id", .prim (chars "1")),
   (chars "X-Github-Hook-Installation-Target-Id", .prim (chars "2")),
   (chars "X-Github-Hook-Installation-Target-Type", .prim (chars "type"))]

/-- Its body. -/
def bodyU : Dict :=
  [(chars "installation", .vdict [(chars "id", .prim (chars "9"))])]

/-- An environment without `CLIENT_ID`: `_get_auth` takes the
private-key/token-exchange branch. -/
def env0 : Env := ⟨none, none, none, some (chars "PK")⟩

/-- A well-formed handler (one parameter). -/
def mGood : Handler := ⟨chars "handler_one", [chars "event"]⟩

/-- A second well-formed handler. -/
def mGood2 : Handler := ⟨chars "handler_two", [chars "evt"]⟩

/-- A zero-parameter handler, rejected at registration. -/
def mBad : Handler :=
  ⟨chars "test_event_handler_method_validation.<locals>.method", []⟩

/-- Two handlers registered directly on the `CheckSuiteCompletedEvent`
leaf, in order. -/
def reg2h : Registry :=
  store (store emptyReg (chars "CheckSuiteCompletedEvent") mGood)
    (chars "CheckSuiteCompletedEvent") mGood2

/-- One handler registered on the `CheckSuiteCompletedEvent` leaf. -/
def reg1h : Registry :=
  store emptyReg (chars "CheckSuiteCompletedEvent") mGood

/-- The registry produced by registering `mGood` against the *non-leaf*
`CheckSuiteEvent` on the empty registry. -/
def regAfterCS : Registry :=
  match add_handler mGood checkSuiteNode emptyReg with
  | .ok r => r
  | .error _ => emptyReg

/-- The registry after additionally registering `mGood` against the
`CheckSuiteCompletedEvent` leaf itself. -/
def regAfterCSL : Registry :=
  match add_handler mGood checkSuiteCompletedNode regAfterCS with
  | .ok r => r
  | .error _ => regAfterCS

/-- `Event.__init__`'s own payload signature: `sender` required
(keyword-only, no default), `repository` defaulted — both captured out
of `**kwargs` before `_raw_body` is stored. -/
def eventSig : CtorSig :=
  ⟨[chars "sender"], [chars "sender", chars "repository"]⟩

/-- The constructor signature shared by `CheckSuiteEvent` and its three
subclasses (which define no `__init__` of their own): `check_suite`
required, then `Event.__init__`'s chain. -/
def checkSuiteSig : CtorSig :=
  ⟨[chars "check_suite", chars "sender"],
   [chars "check_suite", chars "sender", chars "repository"]⟩

/-- `StatusEvent.__init__`: eleven own parameters, all without defaults,
plus the `Event` chain. -/
def statusSig : CtorSig :=
  ⟨[chars "branches", chars "commit", chars "context", chars "created_at",
    chars "description", chars "id", chars "name", chars "sha",
    chars "state", chars "target_url", chars "updated_at", chars "sender"],
   [chars "branches", chars "commit", chars "context", chars "created_at",
    chars "description", chars "id", chars "name", chars "sha",
    chars "state", chars "target_url", chars "updated_at", chars "sender",
    chars "repository"]⟩

/-- The constructor signatures of the classes in `src/`, keyed by class
name like the registry: the four check-suite classes share
`CheckSuiteEvent.__init__`. -/
def sigsRepo : Key → CtorSig := fun n =>
  if n = chars "Event" then eventSig
  else if n = chars "StatusEvent" then statusSig
  else checkSuiteSig

/-- The handler-outcome oracle for handlers that return normally (as the
repository tests' mocks do). -/
def hresOk : Handler → Bool := fun _ => true

/-- The trace of the two-handler delivery (used to name the trace in
closed statements). -/
def trace2h : List DStep :=
  ((handle env0 sigsRepo hresOk eventRoot reg2h hdr0 body0 csInit).getD ([], csInit)).1

/-- The Event class state after the two-handler delivery. -/
def cs2h : EventClassState :=
  ((handle env0 sigsRepo hresOk eventRoot reg2h hdr0 body0 csInit).getD ([], csInit)).2

/-- The trace of the `check_suite/completed` delivery against the
fanned-out registry `regAfterCS`. -/
def traceCS : List DStep :=
  ((handle env0 sigsRepo hresOk eventRoot regAfterCS hdr0 body0 csInit).getD ([], csInit)).1

/-- Its final class state. -/
def csCS : EventClassState :=
  ((handle env0 sigsRepo hresOk eventRoot regAfterCS hdr0 body0 csInit).getD ([], csInit)).2

/-- The trace of the same delivery against the doubly-registered
registry `regAfterCSL`. -/
def traceDup : List DStep :=
  ((handle env0 sigsRepo hresOk eventRoot regAfterCSL hdr0 body0 csInit).getD ([], csInit)).1

/-- Its final class state. -/
def csDup : EventClassState :=
  ((handle env0 sigsRepo hresOk eventRoot regAfterCSL hdr0 body0 csInit).getD ([], csInit)).2

/-- A payload-attributes dict with a browser-facing repository url. -/
def attrs9 : Dict :=
  [(chars "url", .prim (chars "https://github.com/potato")),
   (chars "name", .prim (chars "n"))]

/-- The chain of matches the classifier walks: `DescendM data t r` holds
when `r` is reached from `t` through `children` links and *every* node on
the chain — `t` included — satisfies `Event.match` against `data`. -/
inductive DescendM (data : Dict) : ETree → ETree → Prop
  | refl (t : ETree) : eventMatch (identOf t) data = true → DescendM data t t
  | step (t c r : ETree) : eventMatch (identOf t) data = true → c ∈ childrenOf t →
      DescendM data c r → DescendM data t r

/-! # Theorems -/

/-! ## Generic list/replace lemmas -/

theorem mapFix {α : Type} (f : α → α) :
    ∀ (l : List α), (∀ c ∈ l, f c = c) → l.map f = l := by
  intro l
  induction l with
  | nil => intro _; rfl
  | cons a l ih =>
    intro h
    simp only [List.map_cons]
    rw [h a (List.mem_cons_self a l), ih (fun c hc => h c (List.mem_cons_of_mem a hc))]

theorem replaceAllGo_fuel (p r : List Nat) :
    ∀ (f1 : Nat) (l : List Nat) (f2 : Nat), l.length ≤ f1 → l.length ≤ f2 →
      replaceAllGo p r f1 l = replaceAllGo p r f2 l := by
  intro f1
  induction f1 with
  | zero =>
    intro l f2 h1 _
    cases l with
    | nil => cases f2 <;> rfl
    | cons c cs => simp at h1
  | succ g1 ih =>
    intro l f2 h1 h2
    cases l with
    | nil => cases f2 <;> rfl
    | cons c cs =>
      cases f2 with
      | zero => simp at h2
      | succ g2 =>
        simp only [replaceAllGo]
        by_cases hc : 0 < p.length ∧ (c :: cs).take p.length = p
        · rw [if_pos hc, if_pos hc]
          congr 1
          apply ih
          · simp only [List.length_drop, List.length_cons]
            simp only [List.length_cons] at h1
            omega
          · simp only [List.length_drop, List.length_cons]
            simp only [List.length_cons] at h2
            omega
        · rw [if_neg hc, if_neg hc]
          congr 1
          apply ih
          · simp only [List.length_cons] at h1
            omega
          · simp only [List.length_cons] at h2
            omega

theorem replaceAll_cons_pos (p r : List Nat) (c : Nat) (cs : List Nat)
    (hp : 0 < p.length) (h : (c :: cs).take p.length = p) :
    replaceAll p r (c :: cs) = r ++ replaceAll p r ((c :: cs).drop p.length) := by
  show replaceAllGo p r (c :: cs).length (c :: cs) = _
  rw [show (c :: cs).length = cs.length + 1 from rfl]
  simp only [replaceAllGo, if_pos (And.intro hp h)]
  congr 1
  apply replaceAllGo_fuel
  · simp only [List.length_drop, List.length_cons]
    omega
  · exact Nat.le_refl _

theorem replaceAll_cons_neg (p r : List Nat) (c : Nat) (cs : List Nat)
    (h : ¬(0 < p.length ∧ (c :: cs).take p.length = p)) :
    replaceAll p r (c :: cs) = c :: replaceAll p r cs := by
  show replaceAllGo p r (c :: cs).length (c :: cs) = _
  rw [show (c :: cs).length = cs.length + 1 from rfl]
  simp only [replaceAllGo, if_neg h]
  rfl

theorem occursIn_false_replaceAll (p r : List Nat) :
    ∀ (l : List Nat), occursIn p l = false → replaceAll p r l = l := by
  intro l
  induction l with
  | nil => intro _; rfl
  | cons c cs ih =>
    intro h
    simp only [occursIn, Bool.or_eq_false_iff, decide_eq_false_iff_not] at h
    rw [replaceAll_cons_neg p r c cs (fun hc => h.1 hc.2)]
    rw [ih (by simpa using h.2)]

theorem occursIn_of_occursIn_drop (p : List Nat) :
    ∀ (n : Nat) (l : List Nat), occursIn p (l.drop n) = true → occursIn p l = true := by
  intro n
  induction n with
  | zero => intro l h; simpa using h
  | succ m ih =>
    intro l h
    cases l with
    | nil => simpa using h
    | cons c cs =>
      have : occursIn p cs = true := ih cs (by simpa using h)
      simp only [occursIn, this, Bool.or_true]

theorem replaceAll_pre (p r y : List Nat) (hp : p ≠ []) :
    replaceAll p r (p ++ y) = r ++ replaceAll p r y := by
  cases hpe : p with
  | nil => exact absurd hpe hp
  | cons a as =>
    rw [← hpe]
    have hne : p ++ y = a :: (as ++ y) := by rw [hpe]; rfl
    rw [hne, replaceAll_cons_pos p r a (as ++ y)
      (by rw [hpe]; simp)
      (by rw [← hne, List.take_left' rfl])]
    congr 1
    rw [← hne, List.drop_left' rfl]

/-! ## `occursIn` and membership -/

theorem mem_of_take_eq (l p : List Nat) (h : l.take p.length = p) (a : Nat)
    (ha : a ∈ p) : a ∈ l :=
  (List.take_sublist _ _).subset (h ▸ ha)

theorem occursIn_marker_false_of_no_dash (l : List Nat) (h45 : (45 : Nat) ∉ l) :
    occursIn ghMarker l = false := by
  induction l with
  | nil => rfl
  | cons c cs ih =>
    simp only [occursIn, Bool.or_eq_false_iff, decide_eq_false_iff_not]
    constructor
    · intro htake
      exact h45 (mem_of_take_eq _ _ htake 45 (by decide))
    · exact ih (fun hm => h45 (List.mem_cons_of_mem _ hm))

theorem replaceAll_erase_subset (p : List Nat) :
    ∀ (f : Nat) (l : List Nat) (c : Nat), c ∈ replaceAllGo p [] f l → c ∈ l := by
  intro f
  induction f with
  | zero =>
    intro l c hc
    simpa only [replaceAllGo] using hc
  | succ g ih =>
    intro l c hc
    cases l with
    | nil => simp only [replaceAllGo] at hc; exact absurd hc (List.not_mem_nil c)
    | cons a cs =>
      simp only [replaceAllGo] at hc
      by_cases hcond : 0 < p.length ∧ (a :: cs).take p.length = p
      · rw [if_pos hcond] at hc
        simp only [List.nil_append] at hc
        exact (List.drop_sublist _ _).subset (ih _ c hc)
      · rw [if_neg hcond] at hc
        rcases List.mem_cons.mp hc with hh | ht
        · exact hh ▸ List.mem_cons_self _ _
        · exact List.mem_cons_of_mem _ (ih _ c ht)

/-! ## Character-level facts about the three normalization stages -/

theorem lowerCode_idem (n : Nat) : lowerCode (lowerCode n) = lowerCode n := by
  by_cases h : 65 ≤ n ∧ n ≤ 90
  · rw [show lowerCode n = n + 32 from if_pos h]
    exact if_neg (by omega)
  · rw [show lowerCode n = n from if_neg h]
    exact if_neg h

theorem sepCode_no_sep (n : Nat) : sepCode n ≠ 45 ∧ sepCode n ≠ 32 := by
  by_cases h : n = 45 ∨ n = 32
  · rw [show sepCode n = 95 from if_pos h]
    exact ⟨by omega, by omega⟩
  · rw [show sepCode n = n from if_neg h]
    exact ⟨fun hn => h (Or.inl hn), fun hn => h (Or.inr hn)⟩

theorem sepCode_idem (n : Nat) : sepCode (sepCode n) = sepCode n :=
  if_neg (fun hc => by
    rcases hc with hc | hc
    · exact (sepCode_no_sep n).1 hc
    · exact (sepCode_no_sep n).2 hc)

theorem lowerCode_sepCode (n : Nat) (h : lowerCode n = n) :
    lowerCode (sepCode n) = sepCode n := by
  by_cases hs : n = 45 ∨ n = 32
  · rw [show sepCode n = 95 from if_pos hs]
    rfl
  · rw [show sepCode n = n from if_neg hs]
    exact h

/-! ## `normalizeKey`: output shape and idempotence -/

theorem normalizeKey_no_upper (k : Key) :
    ∀ c ∈ normalizeKey k, lowerCode c = c := by
  intro c hc
  obtain ⟨a, ha, hfa⟩ := List.mem_map.mp hc
  have halow : lowerCode a = a := by
    have ha' : a ∈ lowerStage k := replaceAll_erase_subset ghMarker _ _ a ha
    obtain ⟨b0, _, hb⟩ := List.mem_map.mp ha'
    rw [← hb]
    exact lowerCode_idem b0
  rw [← hfa]
  exact lowerCode_sepCode a halow

theorem normalizeKey_no_sep (k : Key) :
    ∀ c ∈ normalizeKey k, c ≠ 45 ∧ c ≠ 32 := by
  intro c hc
  obtain ⟨a, _, hfa⟩ := List.mem_map.mp hc
  rw [← hfa]
  exact sepCode_no_sep a

theorem normalizeKey_idem (k : Key) :
    normalizeKey (normalizeKey k) = normalizeKey k := by
  have h1 : lowerStage (normalizeKey k) = normalizeKey k :=
    mapFix lowerCode _ (normalizeKey_no_upper k)
  have h45 : (45 : Nat) ∉ normalizeKey k := fun hm =>
    (normalizeKey_no_sep k 45 hm).1 rfl
  have h2 : replaceAll ghMarker [] (normalizeKey k) = normalizeKey k :=
    occursIn_false_replaceAll _ _ _ (occursIn_marker_false_of_no_dash _ h45)
  show sepStage (replaceAll ghMarker [] (lowerStage (normalizeKey k))) = _
  rw [h1, h2]
  show (normalizeKey k).map sepCode = normalizeKey k
  apply mapFix
  intro c hc
  obtain ⟨a, _, hfa⟩ := List.mem_map.mp hc
  rw [← hfa]
  exact sepCode_idem a

theorem normalize_dicts_key_fixed :
    ∀ (ds : List Dict) (e : Key × Val), e ∈ normalize_dicts ds →
      normalizeKey e.1 = e.1 := by
  intro ds
  induction ds with
  | nil => intro e he; simp [normalize_dicts] at he
  | cons d ds ih =>
    intro e he
    simp only [normalize_dicts, List.mem_append] at he
    rcases he with hm | hr
    · obtain ⟨a, _, hfa⟩ := List.mem_map.mp hm
      rw [← hfa]
      exact normalizeKey_idem a.1
    · exact ih e hr

theorem normalize_dicts_idem (ds : List Dict) :
    normalize_dicts [normalize_dicts ds] = normalize_dicts ds := by
  show (normalize_dicts ds).map (fun e => (normalizeKey e.1, e.2)) ++ normalize_dicts []
    = normalize_dicts ds
  rw [show normalize_dicts [] = ([] : Dict) from rfl, List.append_nil]
  apply mapFix
  intro e he
  rw [normalize_dicts_key_fixed ds e he]

theorem normalizeKey_spec_agree (k : Key)
    (h : occursIn ghMarker (List.drop 1 (lowerStage k)) = false) :
    normalizeKey k = specNormalizeKey k := by
  show sepStage (replaceAll ghMarker [] (lowerStage k)) = specNormalizeKey k
  by_cases hstart : (lowerStage k).take ghMarker.length = ghMarker
  · have hsplit : lowerStage k
        = ghMarker ++ (lowerStage k).drop ghMarker.length := by
      conv_lhs => rw [← List.take_append_drop ghMarker.length (lowerStage k)]
      rw [hstart]
    have hrest : occursIn ghMarker ((lowerStage k).drop ghMarker.length) = false := by
      rw [show (lowerStage k).drop ghMarker.length
            = (List.drop 1 (lowerStage k)).drop (ghMarker.length - 1) by
          rw [List.drop_drop]
          congr 1]
      cases hocc : occursIn ghMarker
          ((List.drop 1 (lowerStage k)).drop (ghMarker.length - 1)) with
      | false => rfl
      | true =>
        exact absurd h (by rw [occursIn_of_occursIn_drop ghMarker _ _ hocc]; simp)
    rw [hsplit, replaceAll_pre ghMarker [] _ (by decide), List.nil_append,
      occursIn_false_replaceAll _ _ _ hrest]
    show _ = sepStage (if (lowerStage k).take ghMarker.length = ghMarker
      then (lowerStage k).drop ghMarker.length else lowerStage k)
    rw [if_pos hstart]
  · have hall : occursIn ghMarker (lowerStage k) = false := by
      cases hl : lowerStage k with
      | nil => rfl
      | cons c cs =>
        simp only [occursIn, Bool.or_eq_false_iff, decide_eq_false_iff_not]
        constructor
        · rw [hl] at hstart; exact hstart
        · rw [hl] at h; simpa using h
    rw [occursIn_false_replaceAll _ _ _ hall]
    show _ = sepStage (if (lowerStage k).take ghMarker.length = ghMarker
      then (lowerStage k).drop ghMarker.length else lowerStage k)
    rw [if_neg hstart]

/-! ## `dlookup` / `dupdate` -/

theorem dlookup_cons (k0 : Key) (v0 : Val) (rest : Dict) (k : Key) :
    dlookup ((k0, v0) :: rest) k =
      match dlookup rest k with
      | some w => some w
      | none => if k0 = k then some v0 else none := rfl

theorem dlookup_dupdate_self (k : Key) (v : Val) :
    ∀ (d : Dict), dlookup (dupdate d k v) k = (dlookup d k).map (fun _ => v) := by
  intro d
  induction d with
  | nil => rfl
  | cons e rest ih =>
    obtain ⟨k0, v0⟩ := e
    have hd : dupdate ((k0, v0) :: rest) k v
        = (if k0 = k then (k, v) else (k0, v0)) :: dupdate rest k v := rfl
    rw [hd]
    by_cases hk : k0 = k
    · rw [if_pos hk, dlookup_cons, dlookup_cons, ih]
      cases hr : dlookup rest k with
      | some w => simp
      | none => simp [hk]
    · rw [if_neg hk, dlookup_cons, dlookup_cons, ih]
      cases hr : dlookup rest k with
      | some w => simp
      | none => simp [hk]

theorem dlookup_dupdate_other (k k' : Key) (v : Val) (hne : k' ≠ k) :
    ∀ (d : Dict), dlookup (dupdate d k v) k' = dlookup d k' := by
  intro d
  induction d with
  | nil => rfl
  | cons e rest ih =>
    obtain ⟨k0, v0⟩ := e
    have hd : dupdate ((k0, v0) :: rest) k v
        = (if k0 = k then (k, v) else (k0, v0)) :: dupdate rest k v := rfl
    rw [hd]
    by_cases hk : k0 = k
    · rw [if_pos hk, dlookup_cons, dlookup_cons, ih]
      cases hr : dlookup rest k' with
      | some w => simp
      | none =>
        have h1 : k ≠ k' := fun hkk => hne hkk.symm
        have h2 : k0 ≠ k' := hk ▸ h1
        simp [h1, h2]
    · rw [if_neg hk, dlookup_cons, dlookup_cons, ih]

/-! ## `add_handler`: what lands where -/

mutual

theorem add_handler_count (m : Handler) :
    ∀ (t : ETree) (reg reg' : Registry),
      add_handler m t reg = .ok reg' →
      ∀ (k : Key), reg' k = reg k ++ List.replicate ((leafNames t).count k) m
  | .node n i [], reg, reg', h, k => by
    simp only [add_handler] at h
    cases hv : validate_sig m with
    | error e => rw [hv] at h; exact absurd h (by simp)
    | ok u =>
      rw [hv] at h
      have hr : reg' = store reg n m := by
        cases h
        rfl
      rw [hr]
      show (if k = n then reg k ++ [m] else reg k) = _
      show _ = reg k ++ List.replicate (List.count k [n]) m
      by_cases hk : k = n
      · rw [if_pos hk, hk]
        rw [show List.count n [n] = 1 by simp]
        rfl
      · rw [if_neg hk]
        rw [List.count_eq_zero_of_not_mem (by simp [hk])]
        simp
  | .node n i (c :: cs), reg, reg', h, k => by
    simp only [add_handler] at h
    have := add_handler_list_count m (c :: cs) reg reg' h k
    rw [this]
    rfl

theorem add_handler_list_count (m : Handler) :
    ∀ (ts : List ETree) (reg reg' : Registry),
      add_handler_list m ts reg = .ok reg' →
      ∀ (k : Key), reg' k = reg k ++ List.replicate ((leafNamesList ts).count k) m
  | [], reg, reg', h, k => by
    simp only [add_handler_list] at h
    cases h
    simp [leafNamesList]
  | t :: ts, reg, reg', h, k => by
    simp only [add_handler_list] at h
    cases hfirst : add_handler m t reg with
    | error e => rw [hfirst] at h; exact absurd h (by simp)
    | ok mid =>
      rw [hfirst] at h
      have h1 := add_handler_count m t reg mid hfirst k
      have h2 := add_handler_list_count m ts mid reg' h k
      rw [h2, h1]
      show _ = reg k ++ List.replicate ((leafNames t ++ leafNamesList ts).count k) m
      rw [List.count_append, List.append_assoc, List.replicate_add]

end

mutual

theorem add_handler_err (m : Handler) (hm : m.params.length ≠ 1) :
    ∀ (t : ETree) (reg : Registry), add_handler m t reg = .error ⟨sigMessage m⟩
  | .node n i [], reg => by
    simp only [add_handler]
    rw [show validate_sig m = .error ⟨sigMessage m⟩ from if_pos hm]
  | .node n i (c :: cs), reg => by
    simp only [add_handler]
    exact add_handler_list_err m hm (c :: cs) (by simp) reg

theorem add_handler_list_err (m : Handler) (hm : m.params.length ≠ 1) :
    ∀ (ts : List ETree), ts ≠ [] → ∀ (reg : Registry),
      add_handler_list m ts reg = .error ⟨sigMessage m⟩
  | [], hne, reg => absurd rfl hne
  | t :: ts, _, reg => by
    simp only [add_handler_list]
    rw [add_handler_err m hm t reg]

end

mutual

theorem add_handler_ok (m : Handler) (hm : m.params.length = 1) :
    ∀ (t : ETree) (reg : Registry), ∃ reg', add_handler m t reg = .ok reg'
  | .node n i [], reg => by
    refine ⟨store reg n m, ?_⟩
    simp only [add_handler]
    rw [show validate_sig m = .ok () from if_neg (by omega)]
  | .node n i (c :: cs), reg => by
    simp only [add_handler]
    exact add_handler_list_ok m hm (c :: cs) reg

theorem add_handler_list_ok (m : Handler) (hm : m.params.length = 1) :
    ∀ (ts : List ETree) (reg : Registry), ∃ reg', add_handler_list m ts reg = .ok reg'
  | [], reg => ⟨reg, rfl⟩
  | t :: ts, reg => by
    obtain ⟨mid, hmid⟩ := add_handler_ok m hm t reg
    obtain ⟨fin, hfin⟩ := add_handler_list_ok m hm ts mid
    refine ⟨fin, ?_⟩
    simp only [add_handler_list]
    rw [hmid]
    exact hfin

end

/-! ## Classifier: the match chain -/

theorem pickChild_some (h b : Dict) :
    ∀ (cs : List ETree) (r : ETree), pickChild h b cs = some r →
      ∃ c, c ∈ cs ∧ eventMatch (identOf c) (normalize_dicts [h, b]) = true ∧
        get_event h b c = r := by
  intro cs
  induction cs with
  | nil => intro r hr; exact absurd hr (by simp [pickChild])
  | cons c cs ih =>
    intro r hr
    by_cases hm : eventMatch (identOf c) (normalize_dicts [h, b]) = true
    · simp only [pickChild, if_pos hm] at hr
      exact ⟨c, List.mem_cons_self c cs, hm, by injection hr⟩
    · simp only [pickChild, if_neg hm] at hr
      obtain ⟨c', hmem, hm', hg⟩ := ih r hr
      exact ⟨c', List.mem_cons_of_mem c hmem, hm', hg⟩

theorem pickChild_none (h b : Dict) :
    ∀ (cs : List ETree),
      (∀ c ∈ cs, eventMatch (identOf c) (normalize_dicts [h, b]) = false) →
      pickChild h b cs = none := by
  intro cs
  induction cs with
  | nil => intro _; rfl
  | cons c cs ih =>
    intro hall
    have hc := hall c (List.mem_cons_self c cs)
    simp only [pickChild, hc]
    rw [if_neg (by simp)]
    exact ih (fun c' hc' => hall c' (List.mem_cons_of_mem c hc'))

theorem get_event_descend (h b : Dict) :
    ∀ (t : ETree),
      eventMatch (identOf t) (normalize_dicts [h, b]) = true →
      DescendM (normalize_dicts [h, b]) t (get_event h b t)
  | .node n i cs, ht => by
    cases hp : pickChild h b cs with
    | none =>
      rw [show get_event h b (.node n i cs) = .node n i cs by
        simp only [get_event, hp]]
      exact DescendM.refl _ ht
    | some r =>
      obtain ⟨c, hmem, hm, hg⟩ := pickChild_some h b cs r hp
      have hrec := get_event_descend h b c hm
      rw [show get_event h b (.node n i cs) = r by simp only [get_event, hp]]
      rw [← hg]
      exact DescendM.step _ c _ ht hmem hrec
termination_by t => sizeOf t
decreasing_by
  have hsz := List.sizeOf_lt_of_mem hmem
  simp only [ETree.node.sizeOf_spec]
  omega

theorem get_event_root_of_no_match (h b : Dict) (t : ETree)
    (hall : ∀ c ∈ childrenOf t, eventMatch (identOf c) (normalize_dicts [h, b]) = false) :
    get_event h b t = t := by
  cases t with
  | node n i cs =>
    simp only [get_event, pickChild_none h b cs hall]

/-! ## Trace bookkeeping -/

theorem constructsOf_cons_construct (cn : Key) (k : Nat) (tr : List DStep) :
    constructsOf (.construct cn k :: tr) = k :: constructsOf tr := rfl

theorem constructsOf_cons_call (m : Handler) (k : Nat) (tr : List DStep) :
    constructsOf (.handlerCall m k :: tr) = constructsOf tr := rfl

theorem constructsOf_cons_auth (a : Auth) (tr : List DStep) :
    constructsOf (.authAcquire a :: tr) = constructsOf tr := rfl

theorem callsOf_cons_construct (cn : Key) (k : Nat) (tr : List DStep) :
    callsOf (.construct cn k :: tr) = callsOf tr := rfl

theorem callsOf_cons_call (m : Handler) (k : Nat) (tr : List DStep) :
    callsOf (.handlerCall m k :: tr) = (m, k) :: callsOf tr := rfl

theorem callsOf_cons_auth (a : Auth) (tr : List DStep) :
    callsOf (.authAcquire a :: tr) = callsOf tr := rfl

theorem countAuth_cons_construct (cn : Key) (k : Nat) (tr : List DStep) :
    countAuth (.construct cn k :: tr) = countAuth tr := by
  simp [countAuth, List.countP_cons]

theorem countAuth_cons_call (m : Handler) (k : Nat) (tr : List DStep) :
    countAuth (.handlerCall m k :: tr) = countAuth tr := by
  simp [countAuth, List.countP_cons]

theorem countAuth_cons_auth (a : Auth) (tr : List DStep) :
    countAuth (.authAcquire a :: tr) = countAuth tr + 1 := by
  simp [countAuth, List.countP_cons]

theorem withIdx_cons (k : Nat) (a : α) (l : List α) :
    withIdx k (a :: l) = (k, a) :: withIdx (k + 1) l := rfl

/-! ## `runLoop` and `handle` -/

theorem runLoop_spec (h b : Dict) (cname : Key) (sig : CtorSig)
    (hres : Handler → Bool) :
    ∀ (hs : List Handler) (k : Nat) (cs : EventClassState) (tr : List DStep)
      (csf : EventClassState),
      runLoop h b cname sig hres hs k cs = some (tr, csf) →
      constructsOf tr = (withIdx k hs).map Prod.fst ∧
      callsOf tr = (withIdx k hs).map (fun p => (p.2, p.1)) ∧
      countAuth tr = 0 ∧
      ((hs = [] ∧ csf = cs) ∨ eventInit sig h b = some csf) := by
  intro hs
  induction hs with
  | nil =>
    intro k cs tr csf hr
    simp only [runLoop] at hr
    cases hr
    exact ⟨rfl, rfl, rfl, Or.inl ⟨rfl, rfl⟩⟩
  | cons hd rest ih =>
    intro k cs tr csf hr
    simp only [runLoop] at hr
    cases he : eventInit sig h b with
    | none => rw [he] at hr; exact absurd hr (by simp)
    | some cs' =>
      simp only [he] at hr
      cases hok : hres hd with
      | false => rw [hok] at hr; simp at hr
      | true =>
      rw [if_pos hok] at hr
      cases hrl : runLoop h b cname sig hres rest (k + 1) cs' with
      | none => simp only [hrl] at hr; exact absurd hr (by simp)
      | some p =>
        obtain ⟨tr', csf'⟩ := p
        simp only [hrl] at hr
        obtain ⟨h1, h2, h3, h4⟩ := ih (k + 1) cs' tr' csf' hrl
        cases hr
        refine ⟨?_, ?_, ?_, ?_⟩
        · rw [constructsOf_cons_construct, constructsOf_cons_call, h1, withIdx_cons]
          rfl
        · rw [callsOf_cons_construct, callsOf_cons_call, h2, withIdx_cons]
          rfl
        · rw [countAuth_cons_construct, countAuth_cons_call, h3]
        · rcases h4 with ⟨_, hc⟩ | hsome
          · exact Or.inr (by rw [hc])
          · exact Or.inr (he.symm.trans hsome)

theorem runLoop_cons_state (h b : Dict) (cn : Key) (sig : CtorSig)
    (hres : Handler → Bool) (hd : Handler) (rest : List Handler) (k : Nat)
    (cs cs₂ : EventClassState) :
    runLoop h b cn sig hres (hd :: rest) k cs
      = runLoop h b cn sig hres (hd :: rest) k cs₂ := rfl

theorem handle_spec (env : Env) (sigs : Key → CtorSig) (hres : Handler → Bool)
    (root : ETree) (reg : Registry) (h b : Dict)
    (cs : EventClassState) (tr : List DStep) (csf : EventClassState)
    (hr : handle env sigs hres root reg h b cs = some (tr, csf)) :
    ∃ a trL,
      tr = .authAcquire a :: trL ∧
      runLoop h b (nameOf (get_event h b root)) (sigs (nameOf (get_event h b root)))
          hres (reg (nameOf (get_event h b root))) 0 cs
        = some (trL, csf) := by
  unfold handle at hr
  cases h1 : dlookup h (chars "X-Github-Hook-Installation-Target-Id") with
  | none => simp only [h1] at hr; exact absurd hr (by simp)
  | some tid =>
    simp only [h1] at hr
    cases h2 : dlookup b (chars "installation") with
    | none => simp only [h2] at hr; exact absurd hr (by simp)
    | some iv =>
      simp only [h2] at hr
      cases iv with
      | prim s => simp only [] at hr; exact absurd hr (by simp)
      | vdict inst =>
        cases h3 : dlookup inst (chars "id") with
        | none => simp only [h3] at hr; exact absurd hr (by simp)
        | some iid =>
          simp only [h3] at hr
          cases h4 : runLoop h b (nameOf (get_event h b root))
              (sigs (nameOf (get_event h b root))) hres
              (reg (nameOf (get_event h b root))) 0 cs with
          | none => simp only [h4] at hr; exact absurd hr (by simp)
          | some p =>
            obtain ⟨trL, csf'⟩ := p
            simp only [h4] at hr
            cases hr
            exact ⟨_, trL, rfl, rfl⟩

theorem handle_state_indep (env : Env) (sigs : Key → CtorSig)
    (hres : Handler → Bool) (root : ETree) (reg : Registry) (h b : Dict)
    (cs : EventClassState) (tr : List DStep) (csf : EventClassState)
    (hr : handle env sigs hres root reg h b cs = some (tr, csf))
    (cs₂ : EventClassState) :
    ∃ csf₂, handle env sigs hres root reg h b cs₂ = some (tr, csf₂) ∧
      (reg (nameOf (get_event h b root)) ≠ [] → csf₂ = csf) ∧
      (reg (nameOf (get_event h b root)) = [] → csf = cs ∧ csf₂ = cs₂) := by
  unfold handle at hr ⊢
  cases h1 : dlookup h (chars "X-Github-Hook-Installation-Target-Id") with
  | none => simp only [h1] at hr; exact absurd hr (by simp)
  | some tid =>
    simp only [h1] at hr ⊢
    cases h2 : dlookup b (chars "installation") with
    | none => simp only [h2] at hr; exact absurd hr (by simp)
    | some iv =>
      simp only [h2] at hr ⊢
      cases iv with
      | prim s => simp only [] at hr; exact absurd hr (by simp)
      | vdict inst =>
        cases h3 : dlookup inst (chars "id") with
        | none => simp only [h3] at hr; exact absurd hr (by simp)
        | some iid =>
          simp only [h3] at hr ⊢
          cases hhs : reg (nameOf (get_event h b root)) with
          | nil =>
            rw [hhs] at hr
            simp only [runLoop] at hr
            cases hr
            refine ⟨cs₂, ?_, ?_, ?_⟩
            · rfl
            · intro hne; exact absurd rfl hne
            · intro _; exact ⟨rfl, rfl⟩
          | cons hd rest =>
            rw [hhs] at hr
            cases h4 : runLoop h b (nameOf (get_event h b root))
                (sigs (nameOf (get_event h b root))) hres (hd :: rest) 0 cs with
            | none => simp only [h4] at hr; exact absurd hr (by simp)
            | some p =>
              obtain ⟨trL, csfL⟩ := p
              simp only [h4] at hr
              cases hr
              refine ⟨csf, ?_, fun _ => rfl, ?_⟩
              · rw [← runLoop_cons_state h b _ _ hres hd rest 0 cs cs₂, h4]
              · intro habs
                exact List.noConfusion habs

/-! ## `LazyRequester` -/

theorem lrRead_state (A : Key → Option Val) (s : LRState) (i : Key) :
    (lrRead A s i).2 = if s.initialized then s else ⟨true, s.inits + 1⟩ := by
  by_cases hi : s.initialized
  · simp only [lrRead, if_pos hi]
    cases A i <;> rfl
  · simp only [lrRead, if_neg hi]
    cases A i <;> rfl

theorem lrRead_missing (A : Key → Option Val) (s : LRState) (i : Key)
    (hi : s.initialized = true) (hA : A i = none) :
    (lrRead A s i).1 = .error () ∧ (lrRead A s i).2 = s := by
  constructor
  · simp only [lrRead, if_pos hi, hA]
  · rw [lrRead_state, if_pos hi]

theorem runReads_fold_inits (A : Key → Option Val) :
    ∀ (l : List Key) (s : LRState),
      s.inits ≤ 1 → (s.initialized = false → s.inits = 0) →
      (l.foldl (fun s i => (lrRead A s i).2) s).inits ≤ 1 := by
  intro l
  induction l with
  | nil => intro s h1 _; exact h1
  | cons i rest ih =>
    intro s h1 h2
    simp only [List.foldl_cons]
    by_cases hi : s.initialized
    · rw [lrRead_state, if_pos hi]
      exact ih s h1 h2
    · rw [lrRead_state, if_neg hi]
      have hz : s.inits = 0 := h2 (by simpa using hi)
      apply ih
      · simp [hz]
      · intro hfalse
        simp at hfalse

theorem withIdx_swap_fst {α : Type} :
    ∀ (k : Nat) (l : List α),
      ((withIdx k l).map (fun p => (p.2, p.1))).map Prod.fst = l := by
  intro k l
  induction l generalizing k with
  | nil => rfl
  | cons a rest ih =>
    rw [withIdx_cons]
    simp only [List.map_cons]
    rw [ih (k + 1)]

theorem handle_calls (env : Env) (sigs : Key → CtorSig) (hres : Handler → Bool)
    (root : ETree) (reg : Registry) (h b : Dict)
    (cs : EventClassState) (tr : List DStep) (csf : EventClassState)
    (hr : handle env sigs hres root reg h b cs = some (tr, csf)) :
    (callsOf tr).map Prod.fst = reg (nameOf (get_event h b root)) := by
  obtain ⟨a, trL, htr, hrl⟩ := handle_spec env sigs hres root reg h b cs tr csf hr
  obtain ⟨_, h2, _, _⟩ := runLoop_spec h b _ _ hres _ 0 cs trL csf hrl
  subst htr
  rw [callsOf_cons_auth, h2, withIdx_swap_fst]

theorem count_one_of_nodup_mem {α : Type} [BEq α] [LawfulBEq α] {a : α} :
    ∀ (l : List α), l.Nodup → a ∈ l → l.count a = 1 := by
  intro l
  induction l with
  | nil => intro _ h; exact absurd h (List.not_mem_nil a)
  | cons x xs ih =>
    intro hnd hmem
    obtain ⟨hx, hxs⟩ := List.nodup_cons.mp hnd
    rw [List.count_cons]
    rcases List.mem_cons.mp hmem with h | h
    · subst h
      rw [List.count_eq_zero_of_not_mem hx]
      simp
    · rw [ih hxs h]
      have hbne : (a == x) = false := by
        rw [beq_eq_false_iff_ne]
        intro heq
        exact hx (heq ▸ h)
      simp [hbne]
      exact fun heq => hx (by rw [heq]; exact h)

/-! # Claim theorems -/

/-- C1 (confirmed): `Event.get_event` is a total function (it returns
exactly one event type for every headers/body pair and cannot raise), and
whenever the start node's identifier is satisfied by the normalized union
mapping — the repository's root `Event` has the empty identifier, which is
satisfied vacuously — every node on the chain from that node down to the
returned type satisfies `Event.match` against the union mapping; when no
direct subclass matches, the result is the start node itself. -/
theorem claim1_get_event_chain (t : ETree) (h b : Dict)
    (hroot : eventMatch (identOf t) (normalize_dicts [h, b]) = true) :
    DescendM (normalize_dicts [h, b]) t (get_event h b t) ∧
    ((∀ c ∈ childrenOf t, eventMatch (identOf c) (normalize_dicts [h, b]) = false) →
      get_event h b t = t) :=
  ⟨get_event_descend h b t hroot, fun hall => get_event_root_of_no_match h b t hall⟩

/-- C1 witness: on the repository hierarchy, a `check_suite`/`completed`
delivery descends along a fully-matched chain (to
`CheckSuiteCompletedEvent`), and a delivery matching no subclass resolves
to the root. -/
theorem claim1_get_event_chain_witness :
    DescendM (normalize_dicts [hdr0, body0]) eventRoot (get_event hdr0 body0 eventRoot) ∧
    get_event hdrU bodyU eventRoot = eventRoot :=
  ⟨(claim1_get_event_chain eventRoot hdr0 body0 (by decide)).1,
   (claim1_get_event_chain eventRoot hdrU bodyU (by decide)).2 (by decide)⟩

/-- C2 counterexample: with two (normally-returning) handlers registered
for the matched leaf and a payload carrying all of the constructor's
required fields, `handle` evaluates `event_class(...)` once *per
handler* — the trace shows two constructions (numbers 0 and 1), and the
two handlers receive two *different* instances, refuting "constructed
exactly once … with that same single Event instance". -/
theorem claim2_single_instance_counterexample :
    (handle env0 sigsRepo hresOk eventRoot reg2h hdr0 body0 csInit).map
        (fun p => (constructsOf p.1, callsOf p.1))
      = some ([0, 1], [(mGood, 0), (mGood2, 1)]) := rfl

/-- C2 (corrected): for every delivery `handle` completes — required
payload fields present so every construction succeeds, and no handler
raises — the matched event type is constructed once per registered
handler (not once per delivery), and the handlers are invoked in
registration order, the `i`-th handler receiving the `i`-th freshly
constructed instance as its only argument. -/
theorem claim2_per_handler_construction (env : Env) (sigs : Key → CtorSig)
    (hres : Handler → Bool) (root : ETree)
    (reg : Registry) (h b : Dict) (cs : EventClassState) (tr : List DStep)
    (csf : EventClassState)
    (hr : handle env sigs hres root reg h b cs = some (tr, csf)) :
    constructsOf tr = (withIdx 0 (reg (nameOf (get_event h b root)))).map Prod.fst ∧
    callsOf tr = (withIdx 0 (reg (nameOf (get_event h b root)))).map (fun p => (p.2, p.1)) ∧
    (callsOf tr).map Prod.fst = reg (nameOf (get_event h b root)) := by
  obtain ⟨a, trL, htr, hrl⟩ := handle_spec env sigs hres root reg h b cs tr csf hr
  obtain ⟨h1, h2, _, _⟩ := runLoop_spec h b _ _ hres _ 0 cs trL csf hrl
  refine ⟨?_, ?_, handle_calls env sigs hres root reg h b cs tr csf hr⟩
  · subst htr
    rw [constructsOf_cons_auth, h1]
  · subst htr
    rw [callsOf_cons_auth, h2]

/-- C2 witness: the amended statement evaluated on the two-handler
delivery — constructions `[0, 1]`, calls `[(mGood, 0), (mGood2, 1)]`. -/
theorem claim2_per_handler_construction_witness :
    constructsOf trace2h = [0, 1] ∧
    callsOf trace2h = [(mGood, 0), (mGood2, 1)] := by
  have h := claim2_per_handler_construction env0 sigsRepo hresOk eventRoot
      reg2h hdr0 body0 csInit trace2h cs2h rfl
  exact ⟨h.1.trans (by rfl), h.2.1.trans (by rfl)⟩

/-- C4 (confirmed): registering a handler whose signature does not have
exactly one parameter fails with `SignatureError` whose message names the
handler's `__qualname__` and its comma-joined parameter list, and nothing
is stored under any event type (the error propagates before any append);
a one-parameter handler never raises it. -/
theorem claim4_signature_validation (m : Handler) (t : ETree) (reg : Registry) :
    (m.params.length ≠ 1 →
      add_handler m t reg = .error ⟨chars "Method " ++ m.qualname ++ chars "(" ++
        joinComma m.params ++
        chars ") signature error. The method must accept only one argument of the Event type"⟩ ∧
      ∀ reg', add_handler m t reg ≠ .ok reg') ∧
    (m.params.length = 1 → ∃ reg', add_handler m t reg = .ok reg') := by
  constructor
  · intro hm
    have he := add_handler_err m hm t reg
    refine ⟨he, ?_⟩
    intro reg' hok
    rw [he] at hok
    exact Except.noConfusion hok
  · intro hm
    exact add_handler_ok m hm t reg

/-- C4 witness: the zero-parameter handler of the repository's unit test
is rejected with exactly the message the test expects, and a
one-parameter handler registers fine. -/
theorem claim4_signature_validation_witness :
    add_handler mBad checkSuiteNode emptyReg
      = .error ⟨chars "Method test_event_handler_method_validation.<locals>.method() signature error. The method must accept only one argument of the Event type"⟩ ∧
    ∃ reg', add_handler mGood checkSuiteNode emptyReg = .ok reg' :=
  ⟨(((claim4_signature_validation mBad checkSuiteNode emptyReg).1 (by decide)).1).trans
      (by rfl),
   (claim4_signature_validation mGood checkSuiteNode emptyReg).2 (by decide)⟩

/-- C3 (confirmed): registering a handler against a type with subclasses
stores it under every current leaf descendant (once each, leaf names
being distinct, as distinct classes are distinct registry keys) and under
no other key — in particular never under the non-leaf type itself; a
completed delivery (construction succeeded, no handler raised)
classified to one of those leaves then invokes the handler, and a
delivery classified to an unrelated leaf (under which the handler was
never stored) does not. -/
theorem claim3_add_handler_fanout (m : Handler) (t : ETree) (reg reg' : Registry)
    (hnonleaf : childrenOf t ≠ [])
    (hok : add_handler m t reg = .ok reg')
    (hnd : (leafNames t).Nodup) :
    (∀ n ∈ leafNames t, reg' n = reg n ++ [m]) ∧
    (∀ n, n ∉ leafNames t → reg' n = reg n) ∧
    (∀ env sigs hres root h b cs tr csf,
      handle env sigs hres root reg' h b cs = some (tr, csf) →
      ((nameOf (get_event h b root) ∈ leafNames t →
          m ∈ (callsOf tr).map Prod.fst) ∧
       (nameOf (get_event h b root) ∉ leafNames t →
          m ∉ reg (nameOf (get_event h b root)) →
          m ∉ (callsOf tr).map Prod.fst))) := by
  have hmem : ∀ n ∈ leafNames t, reg' n = reg n ++ [m] := by
    intro n hn
    rw [add_handler_count m t reg reg' hok n,
      count_one_of_nodup_mem (leafNames t) hnd hn]
    rfl
  have hnot : ∀ n, n ∉ leafNames t → reg' n = reg n := by
    intro n hn
    rw [add_handler_count m t reg reg' hok n,
      List.count_eq_zero_of_not_mem hn]
    exact List.append_nil _
  refine ⟨hmem, hnot, ?_⟩
  intro env sigs hres root h b cs tr csf hr
  have hcalls := handle_calls env sigs hres root reg' h b cs tr csf hr
  constructor
  · intro hin
    rw [hcalls, hmem _ hin]
    exact List.mem_append_right _ (List.mem_singleton.mpr rfl)
  · intro hout hfresh
    rw [hcalls, hnot _ hout]
    exact hfresh

/-- C3 witness: fanning `mGood` out over `CheckSuiteEvent` stores it under
the `CheckSuiteCompletedEvent` leaf, not under `CheckSuiteEvent` itself
(nor under the unrelated `StatusEvent` leaf), and a `check_suite/completed`
delivery then invokes it. -/
theorem claim3_add_handler_fanout_witness :
    regAfterCS (chars "CheckSuiteCompletedEvent") = [mGood] ∧
    regAfterCS (chars "CheckSuiteEvent") = [] ∧
    regAfterCS (chars "StatusEvent") = [] ∧
    mGood ∈ (callsOf traceCS).map Prod.fst := by
  have h := claim3_add_handler_fanout mGood checkSuiteNode emptyReg regAfterCS
      (by intro hh; exact List.noConfusion hh) rfl (by decide)
  refine ⟨?_, ?_, ?_, ?_⟩
  · exact (h.1 (chars "CheckSuiteCompletedEvent") (by decide)).trans rfl
  · exact (h.2.1 (chars "CheckSuiteEvent") (by decide)).trans rfl
  · exact (h.2.1 (chars "StatusEvent") (by decide)).trans rfl
  · exact (h.2.2 env0 sigsRepo hresOk eventRoot hdr0 body0 csInit traceCS csCS
      rfl).1 (by decide)

/-- C10 (confirmed): registrations are not deduplicated — registering the
same handler first against a non-leaf ancestor and then against one of
its leaf descendants appends it twice to that leaf's ordered list, and a
completed delivery (construction succeeded, no handler raised)
classified to that leaf invokes it twice. -/
theorem claim10_no_dedup (m : Handler) (t L : ETree) (reg reg1 reg2 : Registry)
    (hmem : nameOf L ∈ leafNames t) (hnd : (leafNames t).Nodup)
    (hleaf : childrenOf L = [])
    (h1 : add_handler m t reg = .ok reg1)
    (h2 : add_handler m L reg1 = .ok reg2)
    (hfresh : m ∉ reg (nameOf L)) :
    reg2 (nameOf L) = reg (nameOf L) ++ [m, m] ∧
    (∀ env sigs hres root h b cs tr csf,
      handle env sigs hres root reg2 h b cs = some (tr, csf) →
      nameOf (get_event h b root) = nameOf L → countCallsTo m tr = 2) := by
  have hr1 : reg1 (nameOf L) = reg (nameOf L) ++ [m] := by
    rw [add_handler_count m t reg reg1 h1 (nameOf L),
      count_one_of_nodup_mem (leafNames t) hnd hmem]
    rfl
  have hLeaf : leafNames L = [nameOf L] := by
    cases L with
    | node n i cs =>
      have : cs = [] := hleaf
      rw [this]
      rfl
  have hr2 : reg2 (nameOf L) = reg (nameOf L) ++ [m, m] := by
    rw [add_handler_count m L reg1 reg2 h2 (nameOf L), hLeaf, hr1]
    rw [show List.count (nameOf L) [nameOf L] = 1 by simp]
    rw [List.append_assoc]
    rfl
  refine ⟨hr2, ?_⟩
  intro env sigs hres root h b cs tr csf hr hname
  have hcalls := handle_calls env sigs hres root reg2 h b cs tr csf hr
  show ((callsOf tr).map Prod.fst).count m = 2
  rw [hcalls, hname, hr2, List.count_append,
    List.count_eq_zero_of_not_mem hfresh]
  simp [List.count_cons]

/-- C10 witness: `mGood` registered against `CheckSuiteEvent` and then
against `CheckSuiteCompletedEvent` sits twice in that leaf's list, and
the `check_suite/completed` delivery calls it twice. -/
theorem claim10_no_dedup_witness :
    regAfterCSL (chars "CheckSuiteCompletedEvent") = [mGood, mGood] ∧
    countCallsTo mGood traceDup = 2 := by
  have h := claim10_no_dedup mGood checkSuiteNode checkSuiteCompletedNode
      emptyReg regAfterCS regAfterCSL (by decide) (by decide) rfl rfl rfl
      (by decide)
  constructor
  · exact h.1.trans rfl
  · exact h.2 env0 sigsRepo hresOk eventRoot hdr0 body0 csInit traceDup csDup
      rfl (by decide)

/-- C5 counterexample: in the private-key environment, a delivery with
*no* registered handlers (so no handler could ever read a lazy field)
still performs exactly one credential acquisition — `handle` calls
`_get_auth` (an app-installation token exchange) eagerly, before the
handler loop — refuting "no authentication call happens … for deliveries
whose handlers never read a lazy field". -/
theorem claim5_eager_auth_counterexample :
    (handle env0 sigsRepo hresOk eventRoot emptyReg hdr0 body0 csInit).map
        (fun p => countAuth p.1)
      = some 1 ∧
    emptyReg (nameOf (get_event hdr0 body0 eventRoot)) = [] :=
  ⟨rfl, rfl⟩

/-- C5 (corrected): the lazy part holds only of the `LazyRequester` used
by lazy resource proxies — its construction acquires no credentials, and
credential acquisition happens exactly on the first attribute read; but
the dispatcher additionally performs exactly one eager `_get_auth`
credential acquisition for every delivery it processes, before any
handler runs and regardless of whether any lazy field is ever read. -/
theorem claim5_lazy_requester_auth (A : Key → Option Val) (i : Key)
    (env : Env) (sigs : Key → CtorSig) (hres : Handler → Bool)
    (root : ETree) (reg : Registry) (h b : Dict)
    (cs : EventClassState) (tr : List DStep) (csf : EventClassState)
    (hr : handle env sigs hres root reg h b cs = some (tr, csf)) :
    LRState.new.inits = 0 ∧
    ((lrRead A LRState.new i).2.inits = 1 ∧
     (lrRead A LRState.new i).2.initialized = true) ∧
    countAuth tr = 1 := by
  refine ⟨rfl, ?_, ?_⟩
  · cases hA : A i with
    | none => simp [lrRead, hA, LRState.new]
    | some v => simp [lrRead, hA, LRState.new]
  · obtain ⟨a, trL, htr, hrl⟩ := handle_spec env sigs hres root reg h b cs tr csf hr
    obtain ⟨_, _, h3, _⟩ := runLoop_spec h b _ _ hres _ 0 cs trL csf hrl
    subst htr
    rw [countAuth_cons_auth, h3]

/-- C5 amended-claim witness at a concrete attribute map and the
two-handler delivery. -/
theorem claim5_lazy_requester_auth_witness :
    (lrRead (fun _ => none) LRState.new (chars "connection")).2.inits = 1 ∧
    countAuth trace2h = 1 := by
  have h := claim5_lazy_requester_auth (fun _ => none) (chars "connection")
      env0 sigsRepo hresOk eventRoot reg2h hdr0 body0 csInit trace2h cs2h rfl
  exact ⟨h.2.1.1, h.2.2⟩

/-- C6 (confirmed): for a lazy requester, initialization (credential
acquisition plus installing the fetched attributes) runs at most once
over any sequence of reads; the first read on a fresh instance triggers
it (the `_initialized` flag flips and the count becomes one), and a read
of an attribute that still does not exist on an initialized instance
returns an attribute-missing error and leaves the state untouched — no
second initialization or fetch. -/
theorem claim6_hydration_at_most_once (A : Key → Option Val) (items : List Key)
    (i : Key) (s : LRState) (hs : s.initialized = true) (hA : A i = none) :
    (runReads A items).inits ≤ 1 ∧
    ((lrRead A LRState.new i).2.initialized = true ∧
     (lrRead A LRState.new i).2.inits = LRState.new.inits + 1) ∧
    ((lrRead A s i).1 = .error () ∧ (lrRead A s i).2 = s) := by
  refine ⟨?_, ?_, lrRead_missing A s i hs hA⟩
  · exact runReads_fold_inits A items LRState.new (by simp [LRState.new]) (fun _ => rfl)
  · rw [lrRead_state]
    exact ⟨rfl, rfl⟩

/-- C6 witness: three reads on a fresh requester initialize once; a
missing attribute on an initialized requester errors without
re-initializing. -/
theorem claim6_hydration_at_most_once_witness :
    (runReads (fun _ => none) [chars "a", chars "b", chars "a"]).inits ≤ 1 ∧
    (lrRead (fun _ => none) ⟨true, 1⟩ (chars "a")).1 = .error () ∧
    (lrRead (fun _ => none) ⟨true, 1⟩ (chars "a")).2 = (⟨true, 1⟩ : LRState) := by
  have h := claim6_hydration_at_most_once (fun _ => none)
      [chars "a", chars "b", chars "a"] (chars "a") ⟨true, 1⟩ rfl rfl
  exact ⟨h.1, h.2.2.1, h.2.2.2⟩

/-- C7 counterexample: handling a delivery with one registered handler
overwrites the `Event` *class* attributes — shared, process-wide state
that the construction and handling of any subsequent delivery can
observe (`LazyRequester.initialize` reads them) — refuting "no mutable
state observable by a subsequent delivery has been changed": the shared
`Event.delivery` slot goes from `None` to the delivery's id. -/
theorem claim7_class_state_mutated_counterexample :
    (handle env0 sigsRepo hresOk eventRoot reg1h hdr0 body0 csInit).map
        (fun p => p.2.delivery)
      = some (some (Val.prim (chars "a1b2c3d4"))) ∧
    csInit.delivery = none :=
  ⟨rfl, rfl⟩

/-- C7 (corrected): handling a delivery does mutate the shared `Event`
class attributes (once per event construction), but the mutation is
overwritten, not accumulated: a delivery that constructs at least one
event sets the class state to a value determined by its own headers and
body alone, a delivery with no registered handlers leaves it unchanged,
and the whole observable outcome (trace and final class state) of
handling a delivery with at least one handler is independent of whatever
class state earlier deliveries left behind; the handler registry is only
read, never written, by `handle`. -/
theorem claim7_class_state_overwrite (env : Env) (sigs : Key → CtorSig)
    (hres : Handler → Bool) (root : ETree)
    (reg : Registry) (h b : Dict) (cs : EventClassState) (tr : List DStep)
    (csf : EventClassState)
    (hr : handle env sigs hres root reg h b cs = some (tr, csf))
    (cs₂ : EventClassState) :
    ((reg (nameOf (get_event h b root)) = [] → csf = cs) ∧
     (reg (nameOf (get_event h b root)) ≠ [] →
        eventInit (sigs (nameOf (get_event h b root))) h b = some csf)) ∧
    (∃ csf₂, handle env sigs hres root reg h b cs₂ = some (tr, csf₂) ∧
      (reg (nameOf (get_event h b root)) ≠ [] → csf₂ = csf)) := by
  obtain ⟨a, trL, htr, hrl⟩ := handle_spec env sigs hres root reg h b cs tr csf hr
  obtain ⟨csf₂, h2, h3, _⟩ :=
    handle_state_indep env sigs hres root reg h b cs tr csf hr cs₂
  refine ⟨⟨?_, ?_⟩, csf₂, h2, h3⟩
  · intro hnil
    rw [hnil] at hrl
    simp only [runLoop] at hrl
    cases hrl
    rfl
  · intro hne
    obtain ⟨_, _, _, h4⟩ := runLoop_spec h b _ _ hres _ 0 cs trL csf hrl
    rcases h4 with ⟨hempty, _⟩ | hsome
    · exact absurd hempty hne
    · exact hsome

/-- C7 amended-claim witness: the one-handler delivery's final class
state is `eventInit` of its own headers and body, and re-running it from
a different prior class state gives the identical outcome. -/
theorem claim7_class_state_overwrite_witness :
    eventInit (sigsRepo (nameOf (get_event hdr0 body0 eventRoot))) hdr0 body0
      = some (((handle env0 sigsRepo hresOk eventRoot reg1h hdr0 body0 csInit).getD
          ([], csInit)).2) ∧
    (∃ csf₂, handle env0 sigsRepo hresOk eventRoot reg1h hdr0 body0 cs2h
        = some ((((handle env0 sigsRepo hresOk eventRoot reg1h hdr0 body0 csInit).getD
            ([], csInit)).1), csf₂)) := by
  have h := claim7_class_state_overwrite env0 sigsRepo hresOk eventRoot reg1h
      hdr0 body0 csInit
      (((handle env0 sigsRepo hresOk eventRoot reg1h hdr0 body0 csInit).getD
          ([], csInit)).1)
      (((handle env0 sigsRepo hresOk eventRoot reg1h hdr0 body0 csInit).getD
          ([], csInit)).2)
      rfl cs2h
  refine ⟨h.1.2 (by intro hh; exact List.noConfusion hh), ?_⟩
  obtain ⟨csf₂, hh2, _⟩ := h.2
  exact ⟨csf₂, hh2⟩

/-- C8 counterexample: the source removes *every* occurrence of
`"x-github-"` (`str.replace`), not only a leading prefix — on the key
`"a-x-github-b"` the code yields `"a_b"` where the prefix-stripping
description demands `"a_x_github_b"`. -/
theorem claim8_prefix_strip_counterexample :
    normalizeKey (chars "a-x-github-b") = chars "a_b" ∧
    specNormalizeKey (chars "a-x-github-b") = chars "a_x_github_b" ∧
    normalizeKey (chars "a-x-github-b") ≠ specNormalizeKey (chars "a-x-github-b") := by
  refine ⟨rfl, rfl, ?_⟩
  decide

/-- C8 (corrected): normalization lower-cases every key, removes *every
occurrence* of `"x-github-"` (coinciding with prefix-stripping whenever
the marker occurs at most as a leading prefix, which covers all real
transport headers), and replaces the `"-"`/`" "` separators with `"_"`
(no separator or upper-case letter survives); normalize_dicts applied to
an already-normalized mapping returns it unchanged (idempotence). -/
theorem claim8_normalization_amended (ds : List Dict) (k : Key)
    (hpre : occursIn ghMarker (List.drop 1 (lowerStage k)) = false) :
    normalize_dicts [normalize_dicts ds] = normalize_dicts ds ∧
    (∀ c ∈ normalizeKey k, lowerCode c = c ∧ c ≠ 45 ∧ c ≠ 32) ∧
    normalizeKey k = specNormalizeKey k :=
  ⟨normalize_dicts_idem ds,
   fun c hc => ⟨normalizeKey_no_upper k c hc, normalizeKey_no_sep k c hc⟩,
   normalizeKey_spec_agree k hpre⟩

/-- C8 amended-claim witness: idempotence on the concrete delivery's
union mapping, and code/spec agreement on a real transport header key. -/
theorem claim8_normalization_amended_witness :
    normalize_dicts [normalize_dicts [hdr0, body0]] = normalize_dicts [hdr0, body0] ∧
    normalizeKey (chars "X-Github-Event") = specNormalizeKey (chars "X-Github-Event") := by
  have h := claim8_normalization_amended [hdr0, body0] (chars "X-Github-Event")
      (by decide)
  exact ⟨h.1, h.2.2⟩

/-- C9 (confirmed): `Event.fix_attributes` rewrites a `"url"` attribute of
the form `"https://github.com/x"` (with `x` the remainder of a web URL,
not itself containing the replaced host string) to
`"https://api.github.com/repos/x"`, leaves any url value that does not
start with `"https://github"` unchanged, and modifies no attribute other
than `"url"`. -/
theorem claim9_fix_attributes (attrs : Dict) (x : List Nat)
    (hurl : dlookup attrs (chars "url")
      = some (.prim (chars "https://github.com/" ++ x)))
    (hnox : occursIn ghComHost x = false) :
    (∃ attrs', fix_attributes attrs = some attrs' ∧
      dlookup attrs' (chars "url")
        = some (.prim (chars "https://api.github.com/repos/" ++ x)) ∧
      (∀ k, k ≠ chars "url" → dlookup attrs' k = dlookup attrs k)) ∧
    (∀ (d : Dict) (s : List Nat), dlookup d (chars "url") = some (.prim s) →
      startsWith s ghWebMark = false → fix_attributes d = some d) := by
  constructor
  · have hsplit : chars "https://github.com/" ++ x = ghComHost ++ (47 :: x) := rfl
    have hguard : startsWith (chars "https://github.com/" ++ x) ghWebMark = true := by
      have : chars "https://github.com/" ++ x
          = ghWebMark ++ (chars ".com/" ++ x) := by
        rw [show chars "https://github.com/" = ghWebMark ++ chars ".com/" from rfl,
          List.append_assoc]
      rw [startsWith, this, List.take_left' rfl]
      simp
    have hocc : occursIn ghComHost (47 :: x) = false := by
      simp only [occursIn, Bool.or_eq_false_iff, decide_eq_false_iff_not]
      refine ⟨?_, by simpa using hnox⟩
      intro htake
      have h47 : (47 :: x).take ghComHost.length = 47 :: x.take (ghComHost.length - 1) := by
        rw [show ghComHost.length = 17 + 1 from rfl]
        rfl
      rw [h47] at htake
      have := congrArg (fun l => l.headI) htake
      simp [ghComHost, chars] at this
    have hrepl : replaceAll ghComHost apiReposHost (chars "https://github.com/" ++ x)
        = chars "https://api.github.com/repos/" ++ x := by
      rw [hsplit, replaceAll_pre ghComHost apiReposHost (47 :: x) (by decide),
        occursIn_false_replaceAll ghComHost apiReposHost (47 :: x) hocc]
      rfl
    refine ⟨dupdate attrs (chars "url")
      (.prim (chars "https://api.github.com/repos/" ++ x)), ?_, ?_, ?_⟩
    · show fix_attributes attrs = _
      unfold fix_attributes
      rw [hurl]
      simp only [hguard, if_true]
      rw [hrepl]
    · rw [dlookup_dupdate_self, hurl]
      rfl
    · intro k hk
      exact dlookup_dupdate_other (chars "url") k _ hk attrs
  · intro d s hd hsw
    unfold fix_attributes
    rw [hd]
    simp only [hsw]
    rw [if_neg (by simp [hsw])]

/-- C9 witness: the unit tests' inputs — `"https://github.com/potato"` is
rewritten to `"https://api.github.com/repos/potato"` with the `"name"`
attribute untouched, and `"correct_url"` is left alone. -/
theorem claim9_fix_attributes_witness :
    (fix_attributes attrs9).map (fun d => dlookup d (chars "url"))
      = some (some (.prim (chars "https://api.github.com/repos/potato"))) ∧
    (fix_attributes attrs9).map (fun d => dlookup d (chars "name"))
      = some (some (.prim (chars "n"))) ∧
    fix_attributes [(chars "url", .prim (chars "correct_url"))]
      = some [(chars "url", .prim (chars "correct_url"))] := by
  have h := claim9_fix_attributes attrs9 (chars "potato") rfl (by decide)
  obtain ⟨attrs', hfix, hurl', hother⟩ := h.1
  refine ⟨?_, ?_, h.2 _ _ rfl rfl⟩
  · rw [hfix]
    show some (dlookup attrs' (chars "url")) = _
    rw [hurl']
    rfl
  · rw [hfix]
    show some (dlookup attrs' (chars "name")) = _
    rw [hother (chars "name") (by decide)]
    rfl
